import Mathlib

/-!
Shallow embedding of the duplicate-file engine of the FileOrganizer repository
(`scripts/doubleterminator.py`, with the second directory guard from
`scripts/sorttofolders.py`), together with theorems settling the frozen claims
about its specification.

Strings are manipulated through their character lists, mirroring Python's
character-wise string operations (`str.lower`, `str.replace` with one-character
arguments, substring membership `in`, `str.split('/')`).

The filesystem is embedded as a list of `FileRecord` snapshots, one per file
visited by the directory walk, in walk order.  Each snapshot carries the
values the corresponding system calls return (`size` for `os.path.getsize`,
`mtime` for `os.path.getmtime`, `digest` for the MD5 of the file's content)
and one flag per fallible system call (`statOk` for the size query during the
scan, `readable` for opening/reading during hashing, `removable` for the
`getsize`/`os.remove` pair during deletion).  Digest equality is treated as
content identity, following the repository's stated non-goal of looking past
hash collisions.
-/

namespace FileOrganizer

/-- Python `str.lower()` on an ASCII path: character-wise lowering. -/
def pyLower (s : List Char) : List Char := s.map Char.toLower

/-- Python `str.replace('\\', '/')`: character-wise replacement, since both the
pattern and the replacement are single characters. -/
def pyReplaceBackslash (s : List Char) : List Char :=
  s.map fun c => if c = '\\' then '/' else c

/-- Python substring membership `pat in s`. -/
def pyIn (pat : List Char) : List Char → Bool
  | [] => pat.isEmpty
  | c :: rest => pat.isPrefixOf (c :: rest) || pyIn pat rest

namespace doubleterminator

/-- `doubleterminator.py` line 58:
`path_lower = os.path.abspath(path).lower().replace('\\', '/')`.
`os.path.abspath` depends on the process working directory and host platform;
on the absolute, trailing-separator-free paths considered here it is the
identity, so the embedding keeps the lowering and separator normalization. -/
def normalize_path (path : String) : String :=
  String.mk (pyReplaceBackslash (pyLower path.data))

/-- `doubleterminator.py` lines 65-68: the fixed list of protected segments. -/
def protected_paths : List String :=
  ["/windows/", "/system32/", "/program files/",
   "/programdata/", "/boot/", "/etc/", "/usr/", "/var/", "/lib/"]

/-- `doubleterminator.py` lines 56-70, `is_protected_directory`: true when the
normalized path is a drive-letter root (`len(path_lower) <= 3 and ':' in
path_lower`), or when it contains one of the protected segments. -/
def is_protected_directory (path : String) : Bool :=
  let path_lower := normalize_path path
  if path_lower.data.length ≤ 3 && path_lower.data.contains ':' then true
  else protected_paths.any fun p => pyIn p.data path_lower.data

/-- One file visited by the walk: the snapshot of everything the engine's
system calls can observe about it. -/
structure FileRecord where
  path : String
  size : Nat
  mtime : Nat
  digest : String
  statOk : Bool
  readable : Bool
  removable : Bool
deriving DecidableEq

/-- Python `defaultdict(list)` update `d[k].append(x)`: append `x` to the entry
with key `k`, or create a new entry at the end (insertion order). -/
def addEntry {κ α : Type} [DecidableEq κ] (k : κ) (x : α) :
    List (κ × List α) → List (κ × List α)
  | [] => [(k, [x])]
  | (k', g) :: rest =>
    if k' = k then (k', g ++ [x]) :: rest else (k', g) :: addEntry k x rest

/-- Python `dict` assignment `d[k] = v`: replace the value at key `k` in
place, or create a new entry at the end. -/
def setEntry {κ α : Type} [DecidableEq κ] (k : κ) (v : List α) :
    List (κ × List α) → List (κ × List α)
  | [] => [(k, v)]
  | (k', v') :: rest =>
    if k' = k then (k', v) :: rest else (k', v') :: setEntry k v rest

/-- Grouping a list by a key through repeated `addEntry`, the common pattern of
both `defaultdict(list)` loops of `find_duplicates`. -/
def groupByKey {κ α : Type} [DecidableEq κ] (key : α → κ) (xs : List α) :
    List (κ × List α) :=
  xs.foldl (fun acc x => addEntry (key x) x acc) []

/-- Invariant of the `addEntry` accumulation over a processed list `seen`:
keys are distinct, every entry holds exactly the processed elements with its
key in processed order, every processed element's key has an entry, and no
entry is empty.  (Proof device for the grouping lemmas below.) -/
def goodAcc {κ α : Type} [DecidableEq κ] (key : α → κ) (seen : List α)
    (acc : List (κ × List α)) : Prop :=
  (acc.map Prod.fst).Nodup ∧
  (∀ e ∈ acc, e.2 = seen.filter fun y => decide (key y = e.1)) ∧
  (∀ y ∈ seen, key y ∈ acc.map Prod.fst) ∧
  (∀ e ∈ acc, e.2 ≠ [])

/-- `doubleterminator.py` lines 114-146: the size-scan loop.  For each visited
file, `os.path.getsize` either succeeds (`statOk`) and the file is appended to
its size bucket, or raises `OSError`/`IOError` and the file is skipped; in
both branches `processed_files` is incremented.  Returns the size buckets and
the final processed counter. -/
def scanPhase (files : List FileRecord) : List (Nat × List FileRecord) × Nat :=
  files.foldl
    (fun acc f =>
      if f.statOk then (addEntry f.size f acc.1, acc.2 + 1)
      else (acc.1, acc.2 + 1))
    ([], 0)

/-- `doubleterminator.py` lines 72-84, `calculate_file_hash`: streams the file
through an MD5 accumulator and returns the hex digest, or `None` when opening
or reading raises `IOError`/`OSError`.  The `digest` field stands for the MD5
of the file's content. -/
def calculate_file_hash (f : FileRecord) : Option String :=
  if f.readable then some f.digest else none

/-- `doubleterminator.py` lines 165-170: hashing one size bucket.  Each file's
hash is computed; on success the file is appended under its digest, on failure
(`None`) it is dropped. -/
def hashBucket (files : List FileRecord) : List (String × List FileRecord) :=
  files.foldl
    (fun hashes f =>
      match calculate_file_hash f with
      | some h => addEntry h f hashes
      | none => hashes)
    []

/-- `doubleterminator.py` lines 162-176: the files on which
`calculate_file_hash` is invoked — exactly the members of size buckets with
two or more members. -/
def hashed_files (files : List FileRecord) : List FileRecord :=
  (scanPhase files).1.foldl
    (fun acc e => if 1 < e.2.length then acc ++ e.2 else acc) []

/-- `doubleterminator.py` lines 98-182, `find_duplicates`: size-scan, then for
each bucket with two or more members hash its files and store every digest
group with two or more members into the `duplicates` dict (keyed by digest).
The early returns for an empty directory and for the absence of multi-member
buckets both return the accumulator unchanged and are subsumed by the fold. -/
def find_duplicates (files : List FileRecord) : List (String × List FileRecord) :=
  (scanPhase files).1.foldl
    (fun dups e =>
      if 1 < e.2.length then
        (hashBucket e.2).foldl
          (fun dups' he =>
            if 1 < he.2.length then setEntry he.1 he.2 dups' else dups')
          dups
      else dups)
    []

/-- `doubleterminator.py` lines 190-191 (also 217-218, 261-262):
`file_list.sort(key=lambda x: os.path.getmtime(x))` — a stable sort by
modification time ascending (`list.sort` is stable; `List.mergeSort` is the
stable sort of the Lean library). -/
def sortByMtime (l : List FileRecord) : List FileRecord :=
  l.mergeSort fun a b => decide (a.mtime ≤ b.mtime)

/-- `doubleterminator.py` lines 221-226 (`delete_interactive`): the retained
member — `file_list[0]` when keeping the oldest, `file_list[-1]` when keeping
the newest, after the sort by modification time. -/
def file_to_keep (file_list : List FileRecord) (keep_oldest : Bool) :
    Option FileRecord :=
  let sorted := sortByMtime file_list
  if keep_oldest then sorted.head? else sorted.getLast?

/-- `doubleterminator.py` lines 193-197 (and 221-226): the members marked for
removal — `file_list[1:]` when keeping the oldest, `file_list[:-1]` when
keeping the newest, after the sort by modification time. -/
def files_to_delete (file_list : List FileRecord) (keep_oldest : Bool) :
    List FileRecord :=
  let sorted := sortByMtime file_list
  if keep_oldest then sorted.drop 1 else sorted.dropLast

/-- `doubleterminator.py` lines 200-207: the per-file deletion loop.  For each
file, `os.path.getsize` is read first, then `os.remove`; on success the
deleted counter is incremented and the recorded size is added to the reclaimed
total; on `OSError`/`IOError` (from either call) the loop continues with both
accumulators unchanged.  `removable` models success of the pair. -/
def delete_files (fs : List FileRecord) (acc : Nat × Nat) : Nat × Nat :=
  fs.foldl (fun a f => if f.removable then (a.1 + 1, a.2 + f.size) else a) acc

/-- `doubleterminator.py` lines 184-209, `delete_duplicates`: bulk resolution.
Sorts each group by modification time, drops all members but the retained one,
and returns `(deleted_count, reclaimed_space)`. -/
def delete_duplicates (duplicates : List (String × List FileRecord))
    (keep_oldest : Bool) : Nat × Nat :=
  duplicates.foldl
    (fun acc e => delete_files (files_to_delete e.2 keep_oldest) acc) (0, 0)

/-- `doubleterminator.py` lines 211-249, `delete_interactive`: interactive
resolution.  Per group, the user's `y`-confirmation (modelled by the `confirm`
predicate) gates the same deletion loop as the bulk mode; a declined group is
skipped with no change. -/
def delete_interactive (duplicates : List (String × List FileRecord))
    (keep_oldest : Bool) (confirm : String × List FileRecord → Bool) :
    Nat × Nat :=
  duplicates.foldl
    (fun acc e =>
      if confirm e then delete_files (files_to_delete e.2 keep_oldest) acc
      else acc)
    (0, 0)

/-- The filesystem operations the engine issues, for the frame claim:
`stat` covers `os.path.getsize`/`os.path.getmtime`/`os.path.isfile`,
`openRead` covers `open(filepath, 'rb')` with its reads, `remove` is
`os.remove`. -/
inductive FsOp where
  | stat (path : String)
  | openRead (path : String)
  | remove (path : String)
deriving DecidableEq

/-- Whether an operation mutates the filesystem: only `remove` does. -/
def FsOp.mutates : FsOp → Bool
  | .remove _ => true
  | _ => false

/-- Effect of one operation on the filesystem snapshot list: `stat` and
`openRead` leave it unchanged, `remove` deletes the records at that path. -/
def applyOp (fs : List FileRecord) (op : FsOp) : List FileRecord :=
  match op with
  | .stat _ => fs
  | .openRead _ => fs
  | .remove p => fs.filter fun f => f.path != p

/-- Trace of the size-scan phase (lines 114-146): one `getsize` per visited
file. -/
def scan_ops (files : List FileRecord) : List FsOp :=
  files.map fun f => FsOp.stat f.path

/-- Trace of the hashing phase (lines 162-176 calling lines 72-84): one
open-for-read per member of a multi-member size bucket. -/
def hash_ops (files : List FileRecord) : List FsOp :=
  (hashed_files files).map fun f => FsOp.openRead f.path

/-- Trace of `find_duplicates`: the scan's stats followed by the hashing
phase's opens. -/
def find_duplicates_ops (files : List FileRecord) : List FsOp :=
  scan_ops files ++ hash_ops files

/-- Trace of the bulk deletion loop (lines 200-207): per marked file, a
`getsize` stat followed, when the pair succeeds, by the `os.remove`. -/
def delete_duplicates_ops (duplicates : List (String × List FileRecord))
    (keep_oldest : Bool) : List FsOp :=
  duplicates.foldl
    (fun acc e =>
      acc ++ (files_to_delete e.2 keep_oldest).foldl
        (fun ops f =>
          ops ++ [FsOp.stat f.path] ++
            (if f.removable then [FsOp.remove f.path] else []))
        [])
    []

/-- Test fixture: a readable, removable 100-byte file with digest `"d"`. -/
def recA : FileRecord := ⟨"a", 100, 1, "d", true, true, true⟩

/-- Test fixture: a second 100-byte file with the same content digest as
`recA` and a later modification time. -/
def recB : FileRecord := ⟨"b", 100, 2, "d", true, true, true⟩

/-- Test fixture: a 100-byte file with a different content digest. -/
def recC : FileRecord := ⟨"c", 100, 3, "x", true, true, true⟩

/-- Test fixture: a 100-byte file that cannot be opened for hashing. -/
def recU : FileRecord := ⟨"u", 100, 4, "d", true, false, true⟩

/-- Test fixture: a file whose size query fails during the scan. -/
def recBad : FileRecord := ⟨"bad", 100, 9, "d", false, true, true⟩

/-- Test fixture: a 100-byte duplicate of `recA` whose deletion fails. -/
def recFail : FileRecord := ⟨"f", 100, 5, "d", true, true, false⟩

end doubleterminator

namespace sorttofolders

/-- `sorttofolders.py` lines 63-68: Windows system path segments. -/
def windows_system_paths : List String :=
  ["/windows/", "/system32/", "/system64/", "/program files/",
   "/program files (x86)/", "/programdata/", "/boot/",
   "/system volume information/", "$windows.~bt", "$windows.~ws",
   "windows.old", "/recovery/", "/perflogs/"]

/-- `sorttofolders.py` lines 71-74: Unix/Linux/Mac system path segments. -/
def unix_system_paths : List String :=
  ["/etc/", "/usr/", "/var/", "/lib/", "/bin/", "/sbin/", "/system/",
   "/library/", "/applications/"]

/-- `sorttofolders.py` lines 54-84, `is_protected_directory`: drive-letter root
check, then the users-directory rule (`'/users/' in path_lower` and `'users'`
is the second-to-last `'/'`-separated part), then the two system-segment
lists. -/
def is_protected_directory (path : String) : Bool :=
  let path_lower := doubleterminator.normalize_path path
  if path_lower.data.length ≤ 3 && path_lower.data.contains ':' then true
  else
    let users_hit :=
      if pyIn "/users/".data path_lower.data then
        let path_parts := path_lower.data.splitOn '/'
        match path_parts.findIdx? (· == "users".data) with
        | some i => i == path_parts.length - 2
        | none => false
      else false
    if users_hit then true
    else
      (windows_system_paths.any fun p => pyIn p.data path_lower.data) ||
      (unix_system_paths.any fun p => pyIn p.data path_lower.data)

end sorttofolders

namespace doubleterminator

theorem map_fst_addEntry {κ α : Type} [DecidableEq κ] (k : κ) (x : α) :
    ∀ acc : List (κ × List α),
      (addEntry k x acc).map Prod.fst =
        acc.map Prod.fst ++ (if k ∈ acc.map Prod.fst then [] else [k])
  | [] => by simp [addEntry]
  | (k', g) :: rest => by
    by_cases hk : k' = k
    · subst hk
      simp [addEntry]
    · simp only [addEntry, if_neg hk, List.map_cons, map_fst_addEntry k x rest,
        List.mem_cons]
      have : ¬ k = k' := fun h => hk h.symm
      by_cases hmem : k ∈ rest.map Prod.fst <;>
        simp [hmem, this]

theorem nodup_map_fst_addEntry {κ α : Type} [DecidableEq κ] (k : κ) (x : α)
    (acc : List (κ × List α)) (hnd : (acc.map Prod.fst).Nodup) :
    ((addEntry k x acc).map Prod.fst).Nodup := by
  rw [map_fst_addEntry]
  by_cases hmem : k ∈ acc.map Prod.fst
  · simpa [hmem] using hnd
  · rw [if_neg hmem]
    rw [List.nodup_append]
    refine ⟨hnd, List.nodup_singleton k, ?_⟩
    intro a ha hb
    simp only [List.mem_singleton] at hb
    exact hmem (hb ▸ ha)

theorem mem_addEntry_cases {κ α : Type} [DecidableEq κ] (k : κ) (x : α) :
    ∀ (acc : List (κ × List α)),
      (acc.map Prod.fst).Nodup →
      ∀ e : κ × List α, e ∈ addEntry k x acc →
      (e ∈ acc ∧ e.1 ≠ k) ∨ (∃ g, (k, g) ∈ acc ∧ e = (k, g ++ [x])) ∨
      (k ∉ acc.map Prod.fst ∧ e = (k, [x]))
  | [], _, e, he => by
    simp only [addEntry, List.mem_singleton] at he
    exact Or.inr (Or.inr ⟨by simp, he⟩)
  | (k', g) :: rest, hnd, e, he => by
    simp only [List.map_cons, List.nodup_cons] at hnd
    by_cases hk : k' = k
    · subst hk
      simp only [addEntry, if_pos rfl] at he
      rcases List.mem_cons.mp he with h | h
      · exact Or.inr (Or.inl ⟨g, List.mem_cons_self _ _, h⟩)
      · refine Or.inl ⟨List.mem_cons_of_mem _ h, ?_⟩
        intro h1
        exact hnd.1 (h1 ▸ List.mem_map_of_mem Prod.fst h)
    · simp only [addEntry, if_neg hk] at he
      rcases List.mem_cons.mp he with h | h
      · subst h
        exact Or.inl ⟨List.mem_cons_self _ _, fun h1 => hk h1⟩
      · rcases mem_addEntry_cases k x rest hnd.2 e h with h1 | h2 | h3
        · exact Or.inl ⟨List.mem_cons_of_mem _ h1.1, h1.2⟩
        · obtain ⟨g', hg', he'⟩ := h2
          exact Or.inr (Or.inl ⟨g', List.mem_cons_of_mem _ hg', he'⟩)
        · refine Or.inr (Or.inr ⟨?_, h3.2⟩)
          simp only [List.map_cons, List.mem_cons]
          rintro (h1 | h1)
          · exact hk h1.symm
          · exact h3.1 h1

theorem goodAcc_addEntry {κ α : Type} [DecidableEq κ] (key : α → κ)
    (seen : List α) (acc : List (κ × List α)) (x : α)
    (h : goodAcc key seen acc) :
    goodAcc key (seen ++ [x]) (addEntry (key x) x acc) := by
  obtain ⟨hnd, hfil, hkeys, hne⟩ := h
  refine ⟨nodup_map_fst_addEntry _ _ _ hnd, ?_, ?_, ?_⟩
  · intro e he
    rcases mem_addEntry_cases (key x) x acc hnd e he with h1 | h2 | h3
    · rw [List.filter_append, hfil e h1.1]
      have : (List.filter (fun y => decide (key y = e.1)) [x]) = [] := by
        simp only [List.filter_eq_nil_iff]
        intro a ha
        simp only [List.mem_singleton] at ha
        subst ha
        simp only [decide_eq_true_eq]
        intro hc
        exact h1.2 hc.symm
      rw [this, List.append_nil]
    · obtain ⟨g, hg, he'⟩ := h2
      subst he'
      have := hfil (key x, g) hg
      simp only at this
      rw [List.filter_append, ← this]
      simp
    · obtain ⟨hnotin, he'⟩ := h3
      subst he'
      have hempty : (seen.filter fun y => decide (key y = key x)) = [] := by
        simp only [List.filter_eq_nil_iff]
        intro a ha
        simp only [decide_eq_true_eq]
        intro hc
        exact hnotin (hc ▸ hkeys a ha)
      simp only [List.filter_append]
      rw [hempty]
      simp
  · intro y hy
    have hsup : ∀ k', k' ∈ acc.map Prod.fst →
        k' ∈ (addEntry (key x) x acc).map Prod.fst := by
      intro k' hk'
      rw [map_fst_addEntry]
      exact List.mem_append_left _ hk'
    rcases List.mem_append.mp hy with h1 | h1
    · exact hsup _ (hkeys y h1)
    · simp only [List.mem_singleton] at h1
      subst h1
      rw [map_fst_addEntry]
      by_cases hmem : key y ∈ acc.map Prod.fst
      · exact List.mem_append_left _ hmem
      · simp [hmem]
  · intro e he
    rcases mem_addEntry_cases (key x) x acc hnd e he with h1 | h2 | h3
    · exact hne e h1.1
    · obtain ⟨g, _, he'⟩ := h2
      subst he'
      simp
    · obtain ⟨_, he'⟩ := h3
      subst he'
      simp

theorem goodAcc_foldl {κ α : Type} [DecidableEq κ] (key : α → κ) :
    ∀ (xs seen : List α) (acc : List (κ × List α)),
      goodAcc key seen acc →
      goodAcc key (seen ++ xs) (xs.foldl (fun a x => addEntry (key x) x a) acc)
  | [], seen, acc, h => by simpa using h
  | x :: xs, seen, acc, h => by
    have := goodAcc_foldl key xs (seen ++ [x]) (addEntry (key x) x acc)
      (goodAcc_addEntry key seen acc x h)
    simpa [List.append_assoc] using this

theorem goodAcc_groupByKey {κ α : Type} [DecidableEq κ] (key : α → κ)
    (xs : List α) : goodAcc key xs (groupByKey key xs) := by
  have := goodAcc_foldl key xs [] [] (by simp [goodAcc])
  simpa [groupByKey] using this

theorem groupByKey_entry_filter {κ α : Type} [DecidableEq κ] (key : α → κ)
    (xs : List α) (e : κ × List α) (he : e ∈ groupByKey key xs) :
    e.2 = xs.filter fun y => decide (key y = e.1) :=
  (goodAcc_groupByKey key xs).2.1 e he

theorem groupByKey_keys_nodup {κ α : Type} [DecidableEq κ] (key : α → κ)
    (xs : List α) : ((groupByKey key xs).map Prod.fst).Nodup :=
  (goodAcc_groupByKey key xs).1

theorem groupByKey_entry_ne_nil {κ α : Type} [DecidableEq κ] (key : α → κ)
    (xs : List α) (e : κ × List α) (he : e ∈ groupByKey key xs) : e.2 ≠ [] :=
  (goodAcc_groupByKey key xs).2.2.2 e he

theorem groupByKey_exists {κ α : Type} [DecidableEq κ] (key : α → κ)
    (xs : List α) (x : α) (hx : x ∈ xs) :
    ∃ e ∈ groupByKey key xs, e.1 = key x ∧ x ∈ e.2 := by
  have hk := (goodAcc_groupByKey key xs).2.2.1 x hx
  obtain ⟨e, he, hfst⟩ := List.mem_map.mp hk
  refine ⟨e, he, hfst, ?_⟩
  rw [groupByKey_entry_filter key xs e he]
  simp [List.mem_filter, hx, hfst]

theorem groupByKey_unique {κ α : Type} [DecidableEq κ] (key : α → κ)
    (xs : List α) (e e' : κ × List α) (he : e ∈ groupByKey key xs)
    (he' : e' ∈ groupByKey key xs) (hk : e.1 = e'.1) : e = e' := by
  have h1 := groupByKey_entry_filter key xs e he
  have h2 := groupByKey_entry_filter key xs e' he'
  have : e.2 = e'.2 := by rw [h1, h2, hk]
  exact Prod.ext hk this

theorem groupByKey_entry_mem {κ α : Type} [DecidableEq κ] (key : α → κ)
    (xs : List α) (e : κ × List α) (he : e ∈ groupByKey key xs)
    (f : α) (hf : f ∈ e.2) : f ∈ xs ∧ key f = e.1 := by
  rw [groupByKey_entry_filter key xs e he] at hf
  have := List.mem_filter.mp hf
  exact ⟨this.1, by simpa using this.2⟩

theorem scanPhase_fst_aux :
    ∀ (files : List FileRecord) (acc : List (Nat × List FileRecord)) (n : Nat),
      (files.foldl
        (fun acc f =>
          if f.statOk then (addEntry f.size f acc.1, acc.2 + 1)
          else (acc.1, acc.2 + 1)) (acc, n)).1 =
      (files.filter fun f => f.statOk).foldl (fun a f => addEntry f.size f a) acc
  | [], _, _ => rfl
  | f :: fs, acc, n => by
    by_cases hs : f.statOk <;>
      simp [hs, scanPhase_fst_aux fs _ _]

theorem scanPhase_fst (files : List FileRecord) :
    (scanPhase files).1 =
      groupByKey (fun f => f.size) (files.filter fun f => f.statOk) := by
  unfold scanPhase groupByKey
  exact scanPhase_fst_aux files [] 0

theorem scanPhase_snd_aux :
    ∀ (files : List FileRecord) (acc : List (Nat × List FileRecord)) (n : Nat),
      (files.foldl
        (fun acc f =>
          if f.statOk then (addEntry f.size f acc.1, acc.2 + 1)
          else (acc.1, acc.2 + 1)) (acc, n)).2 = n + files.length
  | [], _, _ => by simp
  | f :: fs, acc, n => by
    by_cases hs : f.statOk <;>
      simp [hs, scanPhase_snd_aux fs _ _] <;> omega

theorem scanPhase_snd (files : List FileRecord) :
    (scanPhase files).2 = files.length := by
  unfold scanPhase
  simpa using scanPhase_snd_aux files [] 0

theorem hashBucket_eq_aux :
    ∀ (fs : List FileRecord) (acc : List (String × List FileRecord)),
      fs.foldl
        (fun hashes f =>
          match calculate_file_hash f with
          | some h => addEntry h f hashes
          | none => hashes) acc =
      (fs.filter fun f => f.readable).foldl (fun a f => addEntry f.digest f a) acc
  | [], _ => rfl
  | f :: fs, acc => by
    by_cases hr : f.readable
    · have hc : calculate_file_hash f = some f.digest := by
        simp [calculate_file_hash, hr]
      simp only [List.foldl_cons, List.filter_cons, hr, if_true]
      rw [hc]
      exact hashBucket_eq_aux fs _
    · have hc : calculate_file_hash f = none := by
        simp [calculate_file_hash, hr]
      simp only [List.foldl_cons, List.filter_cons, hr, Bool.false_eq_true,
        if_false]
      rw [hc]
      exact hashBucket_eq_aux fs _

theorem hashBucket_eq (fs : List FileRecord) :
    hashBucket fs = groupByKey (fun f => f.digest) (fs.filter fun f => f.readable) := by
  unfold hashBucket groupByKey
  exact hashBucket_eq_aux fs []

theorem mem_setEntry_self {κ α : Type} [DecidableEq κ] (k : κ) (v : List α) :
    ∀ acc : List (κ × List α), (k, v) ∈ setEntry k v acc
  | [] => by simp [setEntry]
  | (k', v') :: rest => by
    by_cases hk : k' = k
    · subst hk
      simp [setEntry]
    · simp only [setEntry, if_neg hk]
      exact List.mem_cons_of_mem _ (mem_setEntry_self k v rest)

theorem mem_setEntry_cases {κ α : Type} [DecidableEq κ] (k : κ) (v : List α) :
    ∀ (acc : List (κ × List α)) (e : κ × List α),
      e ∈ setEntry k v acc → e = (k, v) ∨ e ∈ acc
  | [], e, he => by
    simp only [setEntry, List.mem_singleton] at he
    exact Or.inl he
  | (k', v') :: rest, e, he => by
    by_cases hk : k' = k
    · subst hk
      simp only [setEntry] at he
      rw [if_pos trivial] at he
      rcases List.mem_cons.mp he with h | h
      · exact Or.inl h
      · exact Or.inr (List.mem_cons_of_mem _ h)
    · simp only [setEntry] at he
      rw [if_neg hk] at he
      rcases List.mem_cons.mp he with h | h
      · exact Or.inr (h ▸ List.mem_cons_self _ _)
      · rcases mem_setEntry_cases k v rest e h with h1 | h1
        · exact Or.inl h1
        · exact Or.inr (List.mem_cons_of_mem _ h1)

theorem mem_setEntry_of_ne {κ α : Type} [DecidableEq κ] (k : κ) (v : List α) :
    ∀ (acc : List (κ × List α)) (e : κ × List α), e.1 ≠ k →
      (e ∈ setEntry k v acc ↔ e ∈ acc)
  | [], e, hne => by
    simp only [setEntry, List.mem_singleton, List.not_mem_nil, iff_false]
    intro h
    exact hne (congrArg Prod.fst h)
  | (k', v') :: rest, e, hne => by
    by_cases hk : k' = k
    · subst hk
      simp only [setEntry]
      rw [if_pos trivial]
      simp only [List.mem_cons]
      constructor
      · intro h
        rcases h with h | h
        · exact absurd (congrArg Prod.fst h) hne
        · exact Or.inr h
      · intro h
        rcases h with h | h
        · exact absurd (congrArg Prod.fst h) hne
        · exact Or.inr h
    · simp only [setEntry]
      rw [if_neg hk]
      simp only [List.mem_cons, mem_setEntry_of_ne k v rest e hne]

theorem mem_inner_fold :
    ∀ (hes dups : List (String × List FileRecord)) (e : String × List FileRecord),
      e ∈ hes.foldl
        (fun dups' he => if 1 < he.2.length then setEntry he.1 he.2 dups' else dups')
        dups →
      e ∈ dups ∨ ∃ he ∈ hes, 1 < he.2.length ∧ e = he
  | [], _, _, h => Or.inl h
  | he :: hes, dups, e, h => by
    simp only [List.foldl_cons] at h
    rcases mem_inner_fold hes _ e h with h1 | h2
    · by_cases hlen : 1 < he.2.length
      · rw [if_pos hlen] at h1
        rcases mem_setEntry_cases he.1 he.2 dups e h1 with h3 | h3
        · exact Or.inr ⟨he, List.mem_cons_self _ _, hlen, h3.trans rfl⟩
        · exact Or.inl h3
      · rw [if_neg hlen] at h1
        exact Or.inl h1
    · obtain ⟨he', hmem, hlen, heq⟩ := h2
      exact Or.inr ⟨he', List.mem_cons_of_mem _ hmem, hlen, heq⟩

theorem mem_outer_fold :
    ∀ (bs : List (Nat × List FileRecord))
      (dups : List (String × List FileRecord)) (e : String × List FileRecord),
      e ∈ bs.foldl
        (fun dups e' =>
          if 1 < e'.2.length then
            (hashBucket e'.2).foldl
              (fun dups' he =>
                if 1 < he.2.length then setEntry he.1 he.2 dups' else dups')
              dups
          else dups)
        dups →
      e ∈ dups ∨
        ∃ b ∈ bs, 1 < b.2.length ∧ ∃ hg ∈ hashBucket b.2, 1 < hg.2.length ∧ e = hg
  | [], _, _, h => Or.inl h
  | b :: bs, dups, e, h => by
    simp only [List.foldl_cons] at h
    rcases mem_outer_fold bs _ e h with h1 | h2
    · by_cases hlen : 1 < b.2.length
      · rw [if_pos hlen] at h1
        rcases mem_inner_fold _ _ e h1 with h3 | h3
        · exact Or.inl h3
        · obtain ⟨hg, hmem, hl, heq⟩ := h3
          exact Or.inr ⟨b, List.mem_cons_self _ _, hlen, hg, hmem, hl, heq⟩
      · rw [if_neg hlen] at h1
        exact Or.inl h1
    · obtain ⟨b', hmem, hl, rest⟩ := h2
      exact Or.inr ⟨b', List.mem_cons_of_mem _ hmem, hl, rest⟩

theorem find_duplicates_origin (files : List FileRecord)
    (e : String × List FileRecord) (he : e ∈ find_duplicates files) :
    ∃ b ∈ (scanPhase files).1, 1 < b.2.length ∧
      ∃ hg ∈ hashBucket b.2, 1 < hg.2.length ∧ e = hg := by
  unfold find_duplicates at he
  rcases mem_outer_fold _ _ _ he with h | h
  · exact absurd h (List.not_mem_nil e)
  · exact h

theorem inner_fold_preserve :
    ∀ (hes dups : List (String × List FileRecord)) (e : String × List FileRecord),
      e ∈ dups → (∀ he ∈ hes, he.1 = e.1 → he = e) →
      e ∈ hes.foldl
        (fun dups' he => if 1 < he.2.length then setEntry he.1 he.2 dups' else dups')
        dups
  | [], _, _, h, _ => h
  | he :: hes, dups, e, h, huniq => by
    simp only [List.foldl_cons]
    apply inner_fold_preserve hes _ e _
      (fun he' hm => huniq he' (List.mem_cons_of_mem _ hm))
    by_cases hk : he.1 = e.1
    · have heq : he = e := huniq he (List.mem_cons_self _ _) hk
      subst heq
      by_cases hlen : 1 < he.2.length
      · rw [if_pos hlen]
        exact (Prod.mk.eta (p := he)) ▸ mem_setEntry_self he.1 he.2 dups
      · rw [if_neg hlen]
        exact h
    · by_cases hlen : 1 < he.2.length
      · rw [if_pos hlen]
        exact (mem_setEntry_of_ne he.1 he.2 dups e fun h1 => hk h1.symm).mpr h
      · rw [if_neg hlen]
        exact h

theorem inner_fold_insert :
    ∀ (hes dups : List (String × List FileRecord)) (e : String × List FileRecord),
      e ∈ hes → 1 < e.2.length → (∀ he ∈ hes, he.1 = e.1 → he = e) →
      e ∈ hes.foldl
        (fun dups' he => if 1 < he.2.length then setEntry he.1 he.2 dups' else dups')
        dups
  | [], _, e, h, _, _ => absurd h (List.not_mem_nil e)
  | he :: hes, dups, e, hmem, hlen, huniq => by
    simp only [List.foldl_cons]
    rcases List.mem_cons.mp hmem with h | h
    · subst h
      apply inner_fold_preserve hes _ e _
        (fun he' hm => huniq he' (List.mem_cons_of_mem _ hm))
      rw [if_pos hlen]
      exact (Prod.mk.eta (p := e)) ▸ mem_setEntry_self e.1 e.2 dups
    · exact inner_fold_insert hes _ e h hlen
        (fun he' hm => huniq he' (List.mem_cons_of_mem _ hm))

theorem outer_fold_preserve :
    ∀ (bs : List (Nat × List FileRecord))
      (dups : List (String × List FileRecord)) (e : String × List FileRecord),
      e ∈ dups →
      (∀ b ∈ bs, ∀ he ∈ hashBucket b.2, he.1 = e.1 → he = e) →
      e ∈ bs.foldl
        (fun dups e' =>
          if 1 < e'.2.length then
            (hashBucket e'.2).foldl
              (fun dups' he =>
                if 1 < he.2.length then setEntry he.1 he.2 dups' else dups')
              dups
          else dups)
        dups
  | [], _, _, h, _ => h
  | b :: bs, dups, e, h, huniq => by
    simp only [List.foldl_cons]
    apply outer_fold_preserve bs _ e _
      (fun b' hm => huniq b' (List.mem_cons_of_mem _ hm))
    by_cases hlen : 1 < b.2.length
    · rw [if_pos hlen]
      exact inner_fold_preserve _ _ e h (huniq b (List.mem_cons_self _ _))
    · rw [if_neg hlen]
      exact h

theorem outer_fold_insert :
    ∀ (bs : List (Nat × List FileRecord))
      (dups : List (String × List FileRecord))
      (b : Nat × List FileRecord) (e : String × List FileRecord),
      b ∈ bs → 1 < b.2.length → e ∈ hashBucket b.2 → 1 < e.2.length →
      (∀ b' ∈ bs, ∀ he ∈ hashBucket b'.2, he.1 = e.1 → he = e) →
      e ∈ bs.foldl
        (fun dups e' =>
          if 1 < e'.2.length then
            (hashBucket e'.2).foldl
              (fun dups' he =>
                if 1 < he.2.length then setEntry he.1 he.2 dups' else dups')
              dups
          else dups)
        dups
  | [], _, _, e, hb, _, _, _, _ => absurd hb (List.not_mem_nil _)
  | b' :: bs, dups, b, e, hb, hblen, hmem, hlen, huniq => by
    simp only [List.foldl_cons]
    rcases List.mem_cons.mp hb with h | h
    · subst h
      apply outer_fold_preserve bs _ e _
        (fun b'' hm => huniq b'' (List.mem_cons_of_mem _ hm))
      rw [if_pos hblen]
      exact inner_fold_insert _ _ e hmem hlen (huniq b (List.mem_cons_self _ _))
    · exact outer_fold_insert bs _ b e h hblen hmem hlen
        (fun b'' hm => huniq b'' (List.mem_cons_of_mem _ hm))

theorem find_duplicates_complete (files : List FileRecord)
    (b : Nat × List FileRecord) (e : String × List FileRecord)
    (hb : b ∈ (scanPhase files).1) (hblen : 1 < b.2.length)
    (hmem : e ∈ hashBucket b.2) (hlen : 1 < e.2.length)
    (huniq : ∀ b' ∈ (scanPhase files).1, ∀ he ∈ hashBucket b'.2,
      he.1 = e.1 → he = e) :
    e ∈ find_duplicates files := by
  unfold find_duplicates
  exact outer_fold_insert _ _ b e hb hblen hmem hlen huniq

theorem bucket_entry_filter (files : List FileRecord) (b : Nat × List FileRecord)
    (hb : b ∈ (scanPhase files).1) :
    b.2 = (files.filter fun f => f.statOk).filter fun f => decide (f.size = b.1) := by
  rw [scanPhase_fst] at hb
  exact groupByKey_entry_filter _ _ b hb

theorem bucket_mem (files : List FileRecord) (b : Nat × List FileRecord)
    (hb : b ∈ (scanPhase files).1) (f : FileRecord) (hf : f ∈ b.2) :
    f ∈ files ∧ f.statOk = true ∧ f.size = b.1 := by
  rw [scanPhase_fst] at hb
  have h1 := groupByKey_entry_mem _ _ b hb f hf
  have h2 := List.mem_filter.mp h1.1
  exact ⟨h2.1, h2.2, h1.2⟩

theorem bucket_exists (files : List FileRecord) (f : FileRecord)
    (hf : f ∈ files) (hs : f.statOk = true) :
    ∃ b ∈ (scanPhase files).1, b.1 = f.size ∧ f ∈ b.2 := by
  rw [scanPhase_fst]
  exact groupByKey_exists _ _ f (List.mem_filter.mpr ⟨hf, hs⟩)

theorem bucket_unique (files : List FileRecord) (b b' : Nat × List FileRecord)
    (hb : b ∈ (scanPhase files).1) (hb' : b' ∈ (scanPhase files).1)
    (hk : b.1 = b'.1) : b = b' := by
  rw [scanPhase_fst] at hb hb'
  exact groupByKey_unique _ _ b b' hb hb' hk

theorem hash_entry_filter (fs : List FileRecord) (he : String × List FileRecord)
    (hhe : he ∈ hashBucket fs) :
    he.2 = (fs.filter fun f => f.readable).filter fun f => decide (f.digest = he.1) := by
  rw [hashBucket_eq] at hhe
  exact groupByKey_entry_filter _ _ he hhe

theorem hash_entry_mem (fs : List FileRecord) (he : String × List FileRecord)
    (hhe : he ∈ hashBucket fs) (f : FileRecord) (hf : f ∈ he.2) :
    f ∈ fs ∧ f.readable = true ∧ f.digest = he.1 := by
  rw [hashBucket_eq] at hhe
  have h1 := groupByKey_entry_mem _ _ he hhe f hf
  have h2 := List.mem_filter.mp h1.1
  exact ⟨h2.1, h2.2, h1.2⟩

theorem hash_exists (fs : List FileRecord) (f : FileRecord)
    (hf : f ∈ fs) (hr : f.readable = true) :
    ∃ he ∈ hashBucket fs, he.1 = f.digest ∧ f ∈ he.2 := by
  rw [hashBucket_eq]
  exact groupByKey_exists _ _ f (List.mem_filter.mpr ⟨hf, hr⟩)

theorem hash_unique (fs : List FileRecord) (he he' : String × List FileRecord)
    (h1 : he ∈ hashBucket fs) (h2 : he' ∈ hashBucket fs) (hk : he.1 = he'.1) :
    he = he' := by
  rw [hashBucket_eq] at h1 h2
  exact groupByKey_unique _ _ he he' h1 h2 hk

theorem hash_entry_ne_nil (fs : List FileRecord) (he : String × List FileRecord)
    (hhe : he ∈ hashBucket fs) : he.2 ≠ [] := by
  rw [hashBucket_eq] at hhe
  exact groupByKey_entry_ne_nil _ _ he hhe

theorem two_mem_one_lt_length {α : Type} {l : List α} {x y : α}
    (hx : x ∈ l) (hy : y ∈ l) (hne : x ≠ y) : 1 < l.length := by
  match l with
  | [] => exact absurd hx (List.not_mem_nil _)
  | [a] =>
    simp only [List.mem_singleton] at hx hy
    exact absurd (hx.trans hy.symm) hne
  | a :: b :: t =>
    simp only [List.length_cons]
    omega

theorem hashed_files_aux :
    ∀ (bs : List (Nat × List FileRecord)) (acc : List FileRecord) (f : FileRecord),
      f ∈ bs.foldl (fun acc e => if 1 < e.2.length then acc ++ e.2 else acc) acc →
      f ∈ acc ∨ ∃ b ∈ bs, 1 < b.2.length ∧ f ∈ b.2
  | [], _, _, h => Or.inl h
  | b :: bs, acc, f, h => by
    simp only [List.foldl_cons] at h
    rcases hashed_files_aux bs _ f h with h1 | h2
    · by_cases hlen : 1 < b.2.length
      · rw [if_pos hlen] at h1
        rcases List.mem_append.mp h1 with h3 | h3
        · exact Or.inl h3
        · exact Or.inr ⟨b, List.mem_cons_self _ _, hlen, h3⟩
      · rw [if_neg hlen] at h1
        exact Or.inl h1
    · obtain ⟨b', hm, hl, hf⟩ := h2
      exact Or.inr ⟨b', List.mem_cons_of_mem _ hm, hl, hf⟩

theorem hashed_files_origin (files : List FileRecord) (f : FileRecord)
    (h : f ∈ hashed_files files) :
    ∃ b ∈ (scanPhase files).1, 1 < b.2.length ∧ f ∈ b.2 := by
  unfold hashed_files at h
  rcases hashed_files_aux _ _ f h with h1 | h1
  · exact absurd h1 (List.not_mem_nil f)
  · exact h1

theorem delete_files_spec :
    ∀ (fs : List FileRecord) (a b : Nat),
      delete_files fs (a, b) =
        (a + ((fs.filter fun f => f.removable).length),
         b + (((fs.filter fun f => f.removable).map fun f => f.size).sum))
  | [], a, b => by simp [delete_files]
  | f :: fs, a, b => by
    by_cases hr : f.removable
    · have hstep : delete_files (f :: fs) (a, b) = delete_files fs (a + 1, b + f.size) := by
        simp [delete_files, hr]
      rw [hstep, delete_files_spec fs _ _]
      simp only [List.filter_cons, hr, if_true, List.length_cons, List.map_cons,
        List.sum_cons, Prod.mk.injEq]
      constructor <;> omega
    · have hstep : delete_files (f :: fs) (a, b) = delete_files fs (a, b) := by
        simp [delete_files, hr]
      rw [hstep, delete_files_spec fs _ _]
      simp [List.filter_cons, hr]

theorem delete_duplicates_aux :
    ∀ (dups : List (String × List FileRecord)) (ko : Bool) (a b : Nat),
      dups.foldl (fun acc e => delete_files (files_to_delete e.2 ko) acc) (a, b) =
        (a + (dups.map fun e =>
            ((files_to_delete e.2 ko).filter fun f => f.removable).length).sum,
         b + (dups.map fun e =>
            (((files_to_delete e.2 ko).filter fun f => f.removable).map
              fun f => f.size).sum).sum)
  | [], _, a, b => by simp
  | d :: dups, ko, a, b => by
    simp only [List.foldl_cons]
    rw [delete_files_spec, delete_duplicates_aux dups ko _ _]
    simp only [List.map_cons, List.sum_cons, Prod.mk.injEq]
    constructor <;> omega

theorem delete_duplicates_spec (dups : List (String × List FileRecord)) (ko : Bool) :
    delete_duplicates dups ko =
      ((dups.map fun e =>
          ((files_to_delete e.2 ko).filter fun f => f.removable).length).sum,
       (dups.map fun e =>
          (((files_to_delete e.2 ko).filter fun f => f.removable).map
            fun f => f.size).sum).sum) := by
  unfold delete_duplicates
  simpa using delete_duplicates_aux dups ko 0 0

theorem mtime_le_trans : ∀ a b c : FileRecord,
    decide (a.mtime ≤ b.mtime) → decide (b.mtime ≤ c.mtime) →
    decide (a.mtime ≤ c.mtime) := by
  intro a b c
  simp only [decide_eq_true_eq]
  omega

theorem mtime_le_total : ∀ a b : FileRecord,
    decide (a.mtime ≤ b.mtime) || decide (b.mtime ≤ a.mtime) := by
  intro a b
  simp [Nat.le_total]

theorem sortByMtime_sorted (g : List FileRecord) :
    (sortByMtime g).Pairwise fun a b => decide (a.mtime ≤ b.mtime) = true := by
  unfold sortByMtime
  exact List.sorted_mergeSort mtime_le_trans mtime_le_total g

theorem sortByMtime_perm (g : List FileRecord) : List.Perm (sortByMtime g) g :=
  List.mergeSort_perm g _

theorem sortByMtime_ne_nil (g : List FileRecord) (hg : g ≠ []) :
    sortByMtime g ≠ [] := by
  intro h
  have := (sortByMtime_perm g).length_eq
  rw [h] at this
  exact hg (List.length_eq_zero.mp this.symm)

theorem keep_oldest_spec (g : List FileRecord) (hg : g ≠ []) :
    ∃ keep, file_to_keep g true = some keep ∧ keep ∈ g ∧
      List.Perm (keep :: files_to_delete g true) g ∧
      ∀ x ∈ g, keep.mtime ≤ x.mtime := by
  obtain ⟨y, ys, heq⟩ := List.exists_cons_of_ne_nil (sortByMtime_ne_nil g hg)
  have hperm := sortByMtime_perm g
  have hp := sortByMtime_sorted g
  rw [heq] at hperm hp
  refine ⟨y, ?_, ?_, ?_, ?_⟩
  · simp [file_to_keep, heq]
  · exact hperm.subset (List.mem_cons_self _ _)
  · have : files_to_delete g true = ys := by simp [files_to_delete, heq]
    rw [this]
    exact hperm
  · intro x hx
    rcases List.mem_cons.mp (hperm.mem_iff.mpr hx) with h | h
    · subst h
      exact Nat.le_refl _
    · have := (List.pairwise_cons.mp hp).1 x h
      simpa using this

theorem keep_newest_spec (g : List FileRecord) (hg : g ≠ []) :
    ∃ keep, file_to_keep g false = some keep ∧ keep ∈ g ∧
      List.Perm (keep :: files_to_delete g false) g ∧
      ∀ x ∈ g, x.mtime ≤ keep.mtime := by
  rcases List.eq_nil_or_concat (sortByMtime g) with h | ⟨L, b, heq⟩
  · exact absurd h (sortByMtime_ne_nil g hg)
  · rw [List.concat_eq_append] at heq
    have hperm := sortByMtime_perm g
    have hp := sortByMtime_sorted g
    rw [heq] at hperm hp
    refine ⟨b, ?_, ?_, ?_, ?_⟩
    · simp [file_to_keep, heq]
    · exact hperm.subset (List.mem_append_right _ (List.mem_singleton_self _))
    · have : files_to_delete g false = L := by
        simp [files_to_delete, heq]
      rw [this]
      exact ((List.perm_append_singleton b L).symm).trans hperm
    · intro x hx
      have hcross := (List.pairwise_append.mp hp).2.2
      rcases List.mem_append.mp (hperm.mem_iff.mpr hx) with h | h
      · have := hcross x h b (List.mem_singleton_self _)
        simpa using this
      · rw [List.mem_singleton.mp h]

theorem pairwise_of_const_mtime (g : List FileRecord)
    (h : ∀ x ∈ g, ∀ y ∈ g, x.mtime = y.mtime) :
    g.Pairwise fun a b => decide (a.mtime ≤ b.mtime) = true := by
  induction g with
  | nil => exact List.Pairwise.nil
  | cons a t ih =>
    refine List.pairwise_cons.mpr ⟨?_, ?_⟩
    · intro b hb
      have := h a (List.mem_cons_self _ _) b (List.mem_cons_of_mem _ hb)
      simp [this]
    · exact ih fun x hx y hy =>
        h x (List.mem_cons_of_mem _ hx) y (List.mem_cons_of_mem _ hy)

theorem sortByMtime_const (g : List FileRecord)
    (h : ∀ x ∈ g, ∀ y ∈ g, x.mtime = y.mtime) : sortByMtime g = g := by
  unfold sortByMtime
  exact List.mergeSort_of_sorted (pairwise_of_const_mtime g h)

theorem sum_map_size_const :
    ∀ (l : List FileRecord) (s : Nat), (∀ f ∈ l, f.size = s) →
      (l.map fun f => f.size).sum = l.length * s
  | [], _, _ => by simp
  | f :: l, s, h => by
    simp only [List.map_cons, List.sum_cons, List.length_cons]
    rw [h f (List.mem_cons_self _ _),
      sum_map_size_const l s fun x hx => h x (List.mem_cons_of_mem _ hx)]
    ring

theorem find_duplicates_ops_no_mutation (files : List FileRecord) :
    ∀ op ∈ find_duplicates_ops files, op.mutates = false := by
  intro op hop
  rcases List.mem_append.mp hop with h | h
  · obtain ⟨f, _, rfl⟩ := List.mem_map.mp h
    rfl
  · obtain ⟨f, _, rfl⟩ := List.mem_map.mp h
    rfl

theorem applyOp_no_mutation (fs : List FileRecord) (op : FsOp)
    (h : op.mutates = false) : applyOp fs op = fs := by
  cases op with
  | stat p => rfl
  | openRead p => rfl
  | remove p => simp [FsOp.mutates] at h

theorem trace_preserves :
    ∀ (ops : List FsOp), (∀ op ∈ ops, op.mutates = false) →
      ∀ fs : List FileRecord, ops.foldl applyOp fs = fs
  | [], _, _ => rfl
  | op :: ops, h, fs => by
    simp only [List.foldl_cons]
    rw [applyOp_no_mutation fs op (h op (List.mem_cons_self _ _))]
    exact trace_preserves ops (fun o ho => h o (List.mem_cons_of_mem _ ho)) fs

theorem delete_ops_inner :
    ∀ (fs : List FileRecord) (acc : List FsOp) (op : FsOp),
      op ∈ fs.foldl
        (fun ops f =>
          ops ++ [FsOp.stat f.path] ++
            (if f.removable then [FsOp.remove f.path] else []))
        acc →
      op ∈ acc ∨ ∃ f ∈ fs,
        op = FsOp.stat f.path ∨ (op = FsOp.remove f.path ∧ f.removable = true)
  | [], _, _, h => Or.inl h
  | f :: fs, acc, op, h => by
    simp only [List.foldl_cons] at h
    rcases delete_ops_inner fs _ op h with h1 | h2
    · rcases List.mem_append.mp h1 with h3 | h3
      · rcases List.mem_append.mp h3 with h4 | h4
        · exact Or.inl h4
        · exact Or.inr ⟨f, List.mem_cons_self _ _,
            Or.inl (List.mem_singleton.mp h4)⟩
      · by_cases hr : f.removable
        · rw [if_pos hr] at h3
          exact Or.inr ⟨f, List.mem_cons_self _ _,
            Or.inr ⟨List.mem_singleton.mp h3, hr⟩⟩
        · rw [if_neg hr] at h3
          exact absurd h3 (List.not_mem_nil op)
    · obtain ⟨f', hm, hor⟩ := h2
      exact Or.inr ⟨f', List.mem_cons_of_mem _ hm, hor⟩

theorem delete_ops_outer :
    ∀ (dups : List (String × List FileRecord)) (ko : Bool) (acc : List FsOp)
      (op : FsOp),
      op ∈ dups.foldl
        (fun acc e =>
          acc ++ (files_to_delete e.2 ko).foldl
            (fun ops f =>
              ops ++ [FsOp.stat f.path] ++
                (if f.removable then [FsOp.remove f.path] else []))
            [])
        acc →
      op ∈ acc ∨ ∃ e ∈ dups, ∃ f ∈ files_to_delete e.2 ko,
        op = FsOp.stat f.path ∨ (op = FsOp.remove f.path ∧ f.removable = true)
  | [], _, _, _, h => Or.inl h
  | d :: dups, ko, acc, op, h => by
    simp only [List.foldl_cons] at h
    rcases delete_ops_outer dups ko _ op h with h1 | h2
    · rcases List.mem_append.mp h1 with h3 | h3
      · exact Or.inl h3
      · rcases delete_ops_inner _ _ op h3 with h4 | h4
        · exact absurd h4 (List.not_mem_nil op)
        · obtain ⟨f, hm, hor⟩ := h4
          exact Or.inr ⟨d, List.mem_cons_self _ _, f, hm, hor⟩
    · obtain ⟨e, hm, rest⟩ := h2
      exact Or.inr ⟨e, List.mem_cons_of_mem _ hm, rest⟩

theorem delete_duplicates_ops_origin (dups : List (String × List FileRecord))
    (ko : Bool) (op : FsOp) (h : op ∈ delete_duplicates_ops dups ko) :
    ∃ e ∈ dups, ∃ f ∈ files_to_delete e.2 ko,
      op = FsOp.stat f.path ∨ (op = FsOp.remove f.path ∧ f.removable = true) := by
  unfold delete_duplicates_ops at h
  rcases delete_ops_outer dups ko [] op h with h1 | h1
  · exact absurd h1 (List.not_mem_nil op)
  · exact h1

end doubleterminator

/-- The claim's three-way example fails on the code: `is_protected_directory "/"`
is `false` (the root check requires a `':'` in the normalized path, so the
POSIX root is not classified as protected). -/
theorem c1_path_guard_counterexample :
    doubleterminator.is_protected_directory "/" = false := by decide

/-- C1 (amended): the guard returns true for a drive-letter root such as `C:\`
and for a path containing a reserved segment followed by a separator such as
`/etc/passwd` (which contains `/etc/`), but false for the POSIX root `/` (no
drive separator), false for `/etc` itself (the segment list only matches with
a trailing separator), and false for `/home/alice/photos`. -/
theorem c1_path_guard_amended :
    doubleterminator.is_protected_directory "C:\\" = true ∧
    doubleterminator.is_protected_directory "/etc/passwd" = true ∧
    doubleterminator.is_protected_directory "/" = false ∧
    doubleterminator.is_protected_directory "/etc" = false ∧
    doubleterminator.is_protected_directory "/home/alice/photos" = false := by
  decide

/-- The duplicate engine's guard (`doubleterminator.is_protected_directory`)
has no users-directory rule: it classifies the parent users directory itself
as not protected, contradicting the claim. -/
theorem c9_users_root_counterexample :
    doubleterminator.is_protected_directory "C:\\Users" = false := by decide

/-- C9 (amended): the guard gating the duplicate engine's scans and deletes
has no users-directory rule at all — both the users root and its immediate
subdirectories are classified not protected; only the sorting tool's guard
has a users rule, and there it fires on an immediate subdirectory of a users
directory while the users root itself is classified not protected. -/
theorem c9_users_root_amended :
    doubleterminator.is_protected_directory "C:\\Users" = false ∧
    doubleterminator.is_protected_directory "C:\\Users\\alice" = false ∧
    sorttofolders.is_protected_directory "C:\\Users" = false ∧
    sorttofolders.is_protected_directory "C:\\Users\\alice" = true := by decide

namespace doubleterminator

theorem delete_duplicates_singleton (d : String) (g : List FileRecord)
    (ko : Bool) :
    delete_duplicates [(d, g)] ko = delete_files (files_to_delete g ko) (0, 0) :=
  rfl

theorem delete_duplicates_ops_singleton (d : String) (g : List FileRecord)
    (ko : Bool) :
    delete_duplicates_ops [(d, g)] ko =
      (files_to_delete g ko).foldl
        (fun ops f =>
          ops ++ [FsOp.stat f.path] ++
            (if f.removable then [FsOp.remove f.path] else []))
        [] := by
  unfold delete_duplicates_ops
  simp

theorem sort_fixture_abf :
    sortByMtime [recA, recB, recFail] = [recA, recB, recFail] := by
  unfold sortByMtime
  exact List.mergeSort_of_sorted (by decide)

theorem sort_fixture_ab : sortByMtime [recA, recB] = [recA, recB] := by
  unfold sortByMtime
  exact List.mergeSort_of_sorted (by decide)

theorem ftd_fixture_abf :
    files_to_delete [recA, recB, recFail] true = [recB, recFail] := by
  unfold files_to_delete
  rw [sort_fixture_abf]
  rfl

theorem ftd_fixture_ab : files_to_delete [recA, recB] true = [recB] := by
  unfold files_to_delete
  rw [sort_fixture_ab]
  rfl

/-- C2: on a duplicate group whose members share one size and whose removals
all succeed, bulk resolution deletes exactly `N-1` files and reports exactly
`(N-1) * fileSize` reclaimed bytes (each file's size is the value recorded
before its removal), the marked files number `N-1`, and the retained member
together with the marked ones is a permutation of the whole group. -/
theorem c2_bulk_resolution (d : String) (g : List FileRecord) (s : Nat)
    (keep_oldest : Bool) (hn : 2 ≤ g.length)
    (hsize : ∀ f ∈ g, f.size = s) (hrem : ∀ f ∈ g, f.removable = true) :
    delete_duplicates [(d, g)] keep_oldest = (g.length - 1, (g.length - 1) * s) ∧
    (files_to_delete g keep_oldest).length = g.length - 1 ∧
    ∃ keep, file_to_keep g keep_oldest = some keep ∧
      List.Perm (keep :: files_to_delete g keep_oldest) g := by
  have hgne : g ≠ [] := by
    intro h
    rw [h] at hn
    simp at hn
  have hkeep : ∃ keep, file_to_keep g keep_oldest = some keep ∧ keep ∈ g ∧
      List.Perm (keep :: files_to_delete g keep_oldest) g := by
    cases keep_oldest with
    | true =>
      obtain ⟨keep, e1, e2, e3, _⟩ := keep_oldest_spec g hgne
      exact ⟨keep, e1, e2, e3⟩
    | false =>
      obtain ⟨keep, e1, e2, e3, _⟩ := keep_newest_spec g hgne
      exact ⟨keep, e1, e2, e3⟩
  obtain ⟨keep, hk, _, hperm⟩ := hkeep
  have hsub : ∀ f ∈ files_to_delete g keep_oldest, f ∈ g := fun f hf =>
    hperm.subset (List.mem_cons_of_mem _ hf)
  have hlen : (files_to_delete g keep_oldest).length = g.length - 1 := by
    have := hperm.length_eq
    simp only [List.length_cons] at this
    omega
  have hfil : (files_to_delete g keep_oldest).filter (fun f => f.removable) =
      files_to_delete g keep_oldest :=
    List.filter_eq_self.mpr fun f hf => hrem f (hsub f hf)
  refine ⟨?_, hlen, keep, hk, hperm⟩
  rw [delete_duplicates_spec]
  simp only [List.map_cons, List.map_nil, List.sum_cons, List.sum_nil]
  rw [hfil, hlen, sum_map_size_const _ s fun f hf => hsize f (hsub f hf), hlen]
  simp

/-- Witness for C2 at a two-file group of size 100. -/
theorem c2_bulk_resolution_witness :
    2 ≤ ([recA, recB] : List FileRecord).length ∧
    (delete_duplicates [("d", [recA, recB])] true =
        (([recA, recB] : List FileRecord).length - 1,
         (([recA, recB] : List FileRecord).length - 1) * 100) ∧
      (files_to_delete [recA, recB] true).length =
        ([recA, recB] : List FileRecord).length - 1 ∧
      ∃ keep, file_to_keep [recA, recB] true = some keep ∧
        List.Perm (keep :: files_to_delete [recA, recB] true) [recA, recB]) :=
  ⟨by decide,
    c2_bulk_resolution "d" [recA, recB] 100 true (by decide) (by decide)
      (by decide)⟩

/-- C3: on a non-empty group, `keepOldest=true` retains a member with minimal
modification time (index 0 after the ascending stable sort) and marks exactly
the other members for removal, `keepOldest=false` retains a member with
maximal modification time and marks the others, and when all modification
times are equal the sort leaves the group in input order, so the retained
member is determined by the input order alone (stable tie-breaking). -/
theorem c3_policy_extremes (g : List FileRecord) (hg : g ≠ []) :
    (∃ keep, file_to_keep g true = some keep ∧ keep ∈ g ∧
      List.Perm (keep :: files_to_delete g true) g ∧
      ∀ x ∈ g, keep.mtime ≤ x.mtime) ∧
    (∃ keep, file_to_keep g false = some keep ∧ keep ∈ g ∧
      List.Perm (keep :: files_to_delete g false) g ∧
      ∀ x ∈ g, x.mtime ≤ keep.mtime) ∧
    ((∀ x ∈ g, ∀ y ∈ g, x.mtime = y.mtime) →
      sortByMtime g = g ∧ file_to_keep g true = g.head? ∧
        file_to_keep g false = g.getLast?) := by
  refine ⟨keep_oldest_spec g hg, keep_newest_spec g hg, fun h => ?_⟩
  have hs := sortByMtime_const g h
  exact ⟨hs, by simp [file_to_keep, hs], by simp [file_to_keep, hs]⟩

/-- Witness for C3: a two-file group given in newest-first order. -/
theorem c3_policy_extremes_witness :
    ([recB, recA] : List FileRecord) ≠ [] ∧
    (∃ keep, file_to_keep [recB, recA] true = some keep ∧
      keep ∈ ([recB, recA] : List FileRecord) ∧
      List.Perm (keep :: files_to_delete [recB, recA] true) [recB, recA] ∧
      ∀ x ∈ ([recB, recA] : List FileRecord), keep.mtime ≤ x.mtime) :=
  ⟨by decide, (c3_policy_extremes [recB, recA] (by decide)).1⟩

/-- C4: every group produced by `find_duplicates` has at least two members,
every member hashes to the group's digest key, all members of one group share
one byte size, and no member of a single-member size bucket is ever passed to
the hashing phase. -/
theorem c4_group_invariants (files : List FileRecord)
    (e : String × List FileRecord) (he : e ∈ find_duplicates files) :
    2 ≤ e.2.length ∧
    (∀ f ∈ e.2, calculate_file_hash f = some e.1) ∧
    (∀ f ∈ e.2, ∀ f' ∈ e.2, f.size = f'.size) ∧
    (∀ b ∈ (scanPhase files).1, b.2.length = 1 →
      ∀ f ∈ b.2, f ∉ hashed_files files) := by
  obtain ⟨b, hb, _, hg, hgmem, hglen, heq⟩ := find_duplicates_origin files e he
  subst heq
  refine ⟨hglen, ?_, ?_, ?_⟩
  · intro f hf
    have hm := hash_entry_mem b.2 e hgmem f hf
    simp [calculate_file_hash, hm.2.1, hm.2.2]
  · intro f hf f' hf'
    have hm1 := hash_entry_mem b.2 e hgmem f hf
    have hm2 := hash_entry_mem b.2 e hgmem f' hf'
    have hb1 := bucket_mem files b hb f hm1.1
    have hb2 := bucket_mem files b hb f' hm2.1
    omega
  · intro b' hb' hlen1 f hf hmem
    obtain ⟨b'', hb'', hlen'', hf''⟩ := hashed_files_origin files f hmem
    have hs1 := bucket_mem files b' hb' f hf
    have hs2 := bucket_mem files b'' hb'' f hf''
    have hbb : b' = b'' := bucket_unique files b' b'' hb' hb'' (by omega)
    rw [hbb] at hlen1
    omega

/-- Witness for C4 at a concrete two-duplicate directory. -/
theorem c4_group_invariants_witness :
    (("d", [recA, recB]) ∈ find_duplicates [recA, recB]) ∧
    2 ≤ ("d", ([recA, recB] : List FileRecord)).2.length :=
  ⟨by decide,
    (c4_group_invariants [recA, recB] ("d", [recA, recB]) (by decide)).1⟩

/-- C5 fails as stated: the bulk-resolution outcome is only the pair
`(deleted_count, reclaimed_space)` — a run in which one deletion fails
returns an outcome identical to that of a run with no failure at all, so
the failure is neither counted nor reported in the outcome. -/
theorem c5_failure_counterexample :
    delete_duplicates [("d", [recA, recB, recFail])] true =
      delete_duplicates [("d", [recA, recB])] true ∧
    delete_duplicates [("d", [recA, recB, recFail])] true = (1, 100) := by
  rw [delete_duplicates_singleton, delete_duplicates_singleton,
    ftd_fixture_abf, ftd_fixture_ab]
  exact ⟨by decide, by decide⟩

/-- C5 (amended): a failing deletion is caught and silently skipped (`continue`
with no message and no failure record): the outcome counts and sums exactly
the removable marked files, so a failed file contributes nothing to the
deleted count or the reclaimed bytes, and processing of the remaining files
and groups continues. -/
theorem c5_failure_skipped_amended (dups : List (String × List FileRecord))
    (keep_oldest : Bool) :
    delete_duplicates dups keep_oldest =
      ((dups.map fun e =>
          ((files_to_delete e.2 keep_oldest).filter fun f => f.removable).length).sum,
       (dups.map fun e =>
          (((files_to_delete e.2 keep_oldest).filter fun f => f.removable).map
            fun f => f.size).sum).sum) :=
  delete_duplicates_spec dups keep_oldest

/-- C6: two distinct readable, statable files of one size and one digest land
in one common group, that group is unique, repeated scans of the unchanged
snapshot produce the same groups, and no group ever mixes two sizes. -/
theorem c6_no_false_negatives (files : List FileRecord) (f₁ f₂ : FileRecord)
    (h₁ : f₁ ∈ files) (h₂ : f₂ ∈ files) (hne : f₁ ≠ f₂)
    (hs₁ : f₁.statOk = true) (hs₂ : f₂.statOk = true)
    (hr₁ : f₁.readable = true) (hr₂ : f₂.readable = true)
    (hsize : f₁.size = f₂.size) (hdig : f₁.digest = f₂.digest)
    (hcoll : ∀ g ∈ files, ∀ g' ∈ files, g.digest = g'.digest → g.size = g'.size) :
    (∃ e ∈ find_duplicates files, f₁ ∈ e.2 ∧ f₂ ∈ e.2 ∧
      ∀ e' ∈ find_duplicates files, (f₁ ∈ e'.2 ∨ f₂ ∈ e'.2) → e' = e) ∧
    find_duplicates files = find_duplicates files ∧
    (∀ g g' : FileRecord, ∀ e ∈ find_duplicates files,
      g ∈ e.2 → g' ∈ e.2 → g.size = g'.size) := by
  obtain ⟨b, hb, hbk, hbm1⟩ := bucket_exists files f₁ h₁ hs₁
  have hbm2 : f₂ ∈ b.2 := by
    rw [bucket_entry_filter files b hb]
    refine List.mem_filter.mpr ⟨List.mem_filter.mpr ⟨h₂, hs₂⟩, ?_⟩
    simp only [decide_eq_true_eq]
    omega
  have hblen : 1 < b.2.length := two_mem_one_lt_length hbm1 hbm2 hne
  obtain ⟨hg, hgmem, hgk, hgm1⟩ := hash_exists b.2 f₁ hbm1 hr₁
  have hgm2 : f₂ ∈ hg.2 := by
    rw [hash_entry_filter b.2 hg hgmem]
    refine List.mem_filter.mpr ⟨List.mem_filter.mpr ⟨hbm2, hr₂⟩, ?_⟩
    simp only [decide_eq_true_eq]
    rw [← hdig, hgk]
  have hglen : 1 < hg.2.length := two_mem_one_lt_length hgm1 hgm2 hne
  have huniq : ∀ b' ∈ (scanPhase files).1, ∀ he ∈ hashBucket b'.2,
      he.1 = hg.1 → he = hg := by
    intro b' hb' he' hhe' hk
    obtain ⟨g₀, hg₀⟩ := List.exists_mem_of_ne_nil _ (hash_entry_ne_nil b'.2 he' hhe')
    have hm := hash_entry_mem b'.2 he' hhe' g₀ hg₀
    have hbm := bucket_mem files b' hb' g₀ hm.1
    have hsz : g₀.size = f₁.size := hcoll g₀ hbm.1 f₁ h₁ (by rw [hm.2.2, hk, hgk])
    have hbb : b' = b := bucket_unique files b' b hb' hb (by omega)
    rw [hbb] at hhe'
    exact hash_unique b.2 he' hg hhe' hgmem hk
  refine ⟨⟨hg, find_duplicates_complete files b hg hb hblen hgmem hglen huniq,
    hgm1, hgm2, ?_⟩, rfl, ?_⟩
  · intro e' he' hor
    obtain ⟨b', hb', _, he'', hhe'', _, heq'⟩ := find_duplicates_origin files e' he'
    subst heq'
    rcases hor with hf | hf
    · have hm := hash_entry_mem b'.2 e' hhe'' f₁ hf
      have hbm := bucket_mem files b' hb' f₁ hm.1
      have hbb : b' = b := bucket_unique files b' b hb' hb (by omega)
      rw [hbb] at hhe''
      exact hash_unique b.2 e' hg hhe'' hgmem (by rw [← hm.2.2, hgk])
    · have hm := hash_entry_mem b'.2 e' hhe'' f₂ hf
      have hbm := bucket_mem files b' hb' f₂ hm.1
      have hbb : b' = b := bucket_unique files b' b hb' hb (by omega)
      rw [hbb] at hhe''
      exact hash_unique b.2 e' hg hhe'' hgmem (by rw [← hm.2.2, ← hdig, hgk])
  · intro g g' e he hg1 hg2
    obtain ⟨b', hb', _, he'', hhe'', _, heq'⟩ := find_duplicates_origin files e he
    subst heq'
    have hm1 := hash_entry_mem b'.2 e hhe'' g hg1
    have hm2 := hash_entry_mem b'.2 e hhe'' g' hg2
    have hc1 := bucket_mem files b' hb' g hm1.1
    have hc2 := bucket_mem files b' hb' g' hm2.1
    omega

/-- Witness for C6: two identical-content files next to one of different
content. -/
theorem c6_no_false_negatives_witness :
    (recA ∈ ([recA, recB, recC] : List FileRecord)) ∧
    recA ≠ recB ∧
    (∀ g ∈ ([recA, recB, recC] : List FileRecord),
      ∀ g' ∈ ([recA, recB, recC] : List FileRecord),
        g.digest = g'.digest → g.size = g'.size) ∧
    (∃ e ∈ find_duplicates [recA, recB, recC], recA ∈ e.2 ∧ recB ∈ e.2 ∧
      ∀ e' ∈ find_duplicates [recA, recB, recC],
        (recA ∈ e'.2 ∨ recB ∈ e'.2) → e' = e) :=
  ⟨by decide, by decide, by decide,
    (c6_no_false_negatives [recA, recB, recC] recA recB (by decide) (by decide)
      (by decide) (by decide) (by decide) (by decide) (by decide) (by decide)
      (by decide) (by decide)).1⟩

/-- C7: the hasher returns a failure exactly for an unreadable file, a file
whose hashing fails appears in no group, and in the concrete three-member
bucket with one unreadable member the two remaining readable members are
still grouped together. -/
theorem c7_hash_failure_excluded :
    (∀ f : FileRecord, calculate_file_hash f = none ↔ f.readable = false) ∧
    (∀ (files : List FileRecord) (f : FileRecord), f.readable = false →
      ∀ e ∈ find_duplicates files, f ∉ e.2) ∧
    find_duplicates [recA, recB, recU] = [("d", [recA, recB])] := by
  refine ⟨?_, ?_, by decide⟩
  · intro f
    cases hf : f.readable <;> simp [calculate_file_hash, hf]
  · intro files f hru e he hf
    obtain ⟨b, hb, _, hg, hgmem, _, heq⟩ := find_duplicates_origin files e he
    subst heq
    have hm := hash_entry_mem b.2 e hgmem f hf
    rw [hm.2.1] at hru
    exact Bool.noConfusion hru

/-- Witness for C7: the unreadable member of the mixed bucket is excluded
from the produced group. -/
theorem c7_hash_failure_excluded_witness :
    recU.readable = false ∧
    (("d", [recA, recB]) ∈ find_duplicates [recA, recB, recU]) ∧
    recU ∉ ("d", ([recA, recB] : List FileRecord)).2 :=
  ⟨by decide, by decide,
    c7_hash_failure_excluded.2.1 [recA, recB, recU] recU (by decide)
      ("d", [recA, recB]) (by decide)⟩

/-- C8: the scan's processed counter always ends at the number of visited
files (errors included), a file whose size query failed is in no bucket, and
an empty directory yields no buckets, no groups, and nothing hashed. -/
theorem c8_scan_error_isolation :
    (∀ files : List FileRecord, (scanPhase files).2 = files.length) ∧
    (∀ files : List FileRecord, ∀ b ∈ (scanPhase files).1, ∀ f ∈ b.2,
      f.statOk = true) ∧
    scanPhase ([] : List FileRecord) = ([], 0) ∧
    find_duplicates ([] : List FileRecord) = [] ∧
    hashed_files ([] : List FileRecord) = [] := by
  refine ⟨scanPhase_snd, ?_, rfl, rfl, rfl⟩
  intro files b hb f hf
  exact (bucket_mem files b hb f hf).2.1

/-- Witness for C8: a scan over one good and one failing file. -/
theorem c8_scan_error_isolation_witness :
    ((100, [recA]) ∈ (scanPhase [recA, recBad]).1) ∧
    (recA ∈ ((100, [recA]) : Nat × List FileRecord).2) ∧
    recA.statOk = true :=
  ⟨by decide, by decide,
    c8_scan_error_isolation.2.1 [recA, recBad] (100, [recA]) (by decide)
      recA (by decide)⟩

/-- C10: the operation trace of scanning plus hashing contains no mutating
operation and leaves every filesystem snapshot unchanged, while every
mutating operation of the bulk-resolution trace is the removal of a file the
resolution policy marked for deletion. -/
theorem c10_scan_frame (files : List FileRecord) :
    (∀ op ∈ find_duplicates_ops files, op.mutates = false) ∧
    (∀ fs : List FileRecord, (find_duplicates_ops files).foldl applyOp fs = fs) ∧
    (∀ (dups : List (String × List FileRecord)) (ko : Bool) (op : FsOp),
      op ∈ delete_duplicates_ops dups ko → op.mutates = true →
      ∃ e ∈ dups, ∃ f ∈ files_to_delete e.2 ko, op = FsOp.remove f.path) := by
  refine ⟨find_duplicates_ops_no_mutation files, ?_, ?_⟩
  · intro fs
    exact trace_preserves _ (find_duplicates_ops_no_mutation files) fs
  · intro dups ko op hop hmut
    obtain ⟨e, he, f, hf, hor⟩ := delete_duplicates_ops_origin dups ko op hop
    rcases hor with h | h
    · rw [h] at hmut
      simp [FsOp.mutates] at hmut
    · exact ⟨e, he, f, hf, h.1⟩

/-- Witness for C10: the removal op of the two-file group's bulk trace is a
policy-marked removal. -/
theorem c10_scan_frame_witness :
    (FsOp.remove recB.path ∈ delete_duplicates_ops [("d", [recA, recB])] true) ∧
    (FsOp.remove recB.path).mutates = true ∧
    (∃ e ∈ ([("d", [recA, recB])] : List (String × List FileRecord)),
      ∃ f ∈ files_to_delete e.2 true, FsOp.remove recB.path = FsOp.remove f.path) := by
  have hops : FsOp.remove recB.path ∈ delete_duplicates_ops [("d", [recA, recB])] true := by
    rw [delete_duplicates_ops_singleton, ftd_fixture_ab]
    decide
  exact ⟨hops, by decide,
    (c10_scan_frame []).2.2 [("d", [recA, recB])] true (FsOp.remove recB.path)
      hops (by decide)⟩

end doubleterminator

end FileOrganizer
